import Mathlib

set_option maxRecDepth 8000

/-!
Shallow embedding of scripts/setup/silabs/validate_efr32_sdk_paths.py.

Strings are modelled as lists of characters.  The extractor, resolver,
validator and driver are translated function by function from the Python
source; filesystem access is abstracted as a record of boolean predicates
on path strings, and the regular expressions of the source are modelled
by deterministic scanning functions that implement the leftmost-greedy
semantics the patterns have (the character classes exclude their
closing delimiter, so the greedy scan is unambiguous).
-/

namespace SdkPaths

abbrev Chars := List Char

def chars (s : String) : Chars := s.data

/-- Boolean prefix test on character lists. -/
def isPre : Chars → Chars → Bool
  | [], _ => true
  | _ :: _, [] => false
  | a :: as, b :: bs => if a = b then isPre as bs else false

/-- Boolean substring test, modelling the Python `in` operator on strings. -/
def hasSub (pat : Chars) : Chars → Bool
  | [] => pat.isEmpty
  | c :: rest => isPre pat (c :: rest) || hasSub pat rest

/-- Boolean suffix test, modelling Python `str.endswith`. -/
def endsWithL (l suf : Chars) : Bool := isPre suf.reverse l.reverse

/-- Characters stripped by Python `str.strip()` on the inputs at hand. -/
def isPySpace (c : Char) : Bool :=
  c = ' ' || c = '\t' || c = '\n' || c = '\r' || c = '\x0b' || c = '\x0c'

/-- Remove the maximal trailing run of characters satisfying `p`,
modelling Python `str.rstrip`. -/
def dropTrail (p : Char → Bool) : Chars → Chars
  | [] => []
  | c :: rest =>
    match dropTrail p rest with
    | [] => if p c then [] else [ c ]
    | d :: ds => c :: d :: ds

/-- Python `str.strip()`: drop leading and trailing whitespace. -/
def pstrip (l : Chars) : Chars := dropTrail isPySpace (List.dropWhile isPySpace l)

/-- Prefix of the list before the first occurrence of a double slash,
modelling Python `s.split("//")[0]`. -/
def takeUntilDS : Chars → Chars
  | [] => []
  | [ c ] => [ c ]
  | c :: d :: rest => if c = '/' && d = '/' then [] else c :: takeUntilDS (d :: rest)

/-- Left-to-right non-overlapping replacement of double slashes by single
slashes, modelling Python `s.replace("//", "/")`. -/
def replDS : Chars → Chars
  | [] => []
  | [ c ] => [ c ]
  | c :: d :: rest =>
    if c = '/' && d = '/' then '/' :: replDS rest else c :: replDS (d :: rest)

/-- Split a list at the first occurrence of character `c`; the returned
first component does not contain `c` and the second is everything after
the first `c`. -/
def splitAtChar (c : Char) : Chars → Option (Chars × Chars)
  | [] => none
  | x :: xs => if x = c then some ([], xs) else (splitAtChar c xs).map (fun p => (x :: p.1, p.2))

/-- Opening token of a variable placeholder. -/
def phTok : Chars := [ '$', '{' ]

/-- Rendered placeholder for the name `n`. -/
def phString (n : Chars) : Chars := '$' :: '{' :: (n ++ [ '}' ])

/-!
Expression extractor (`extract_path_expressions`) — the quoted-string scan
models the pattern that matches a double quote, a placeholder, further
non-quote characters and a closing double quote, returning the first group.
-/

/-- Attempt to match, right after an opening double quote, a placeholder
followed by non-quote characters and a closing double quote.  Returns the
captured group and the remainder of the line after the closing quote. -/
def tryMatch : Chars → Option (Chars × Chars)
  | '$' :: '{' :: rs =>
    match splitAtChar '}' rs with
    | some (inner, after) =>
      if inner.isEmpty then none
      else
        match splitAtChar '"' after with
        | some (tail, r) => some ('$' :: '{' :: (inner ++ '}' :: tail), r)
        | none => none
    | none => none
  | _ => none

/-- Fuelled scan of a line for all non-overlapping quoted placeholder
expressions, left to right. -/
def scanLineF : Nat → Chars → List Chars
  | 0, _ => []
  | _ + 1, [] => []
  | fuel + 1, c :: rest =>
    if c = '"' then
      match tryMatch rest with
      | some (g, r) => g :: scanLineF fuel r
      | none => scanLineF fuel rest
    else scanLineF fuel rest

/-- All captured groups of the quoted-expression pattern in one line. -/
def scanLine (line : Chars) : List Chars := scanLineF line.length line

/-- Post-processing and filtering of one captured group: strip a trailing
comment, surrounding whitespace, trailing commas and a stray quote, then
keep the candidate only if it has a placeholder, looks path-like, has no
colon and does not name a build file. -/
def processRaw (g : Chars) : Option Chars :=
  let r1 := takeUntilDS g
  let r4 := pstrip (dropTrail (fun c => c = ',') (pstrip r1))
  let raw := if endsWithL r4 [ '"' ] then r4.dropLast else r4
  if hasSub phTok raw && (hasSub [ '/' ] raw || endsWithL raw [ '}' ]) then
    if hasSub [ ':' ] raw then none
    else if endsWithL (pstrip raw) (chars ".gni") then none
    else some raw
  else none

/-- Context update for one line, from the marker tokens of the source. -/
def updateCtx (context : Chars) (line : Chars) : Chars :=
  if hasSub (chars "include_dirs") line || hasSub (chars "_include_dirs") line then
    chars "include_dir"
  else if hasSub (chars "libs +=") line || hasSub (chars "libs =") line then
    chars "lib"
  else if hasSub (chars "sources") line &&
      (hasSub (chars "sources +=") line || hasSub (chars "sources =") line) then
    chars "source"
  else context

/-- Split at newline characters, modelling Python `str.split` on a newline. -/
def splitLines : Chars → List Chars
  | [] => [ [] ]
  | c :: rest =>
    if c = '\n' then [] :: splitLines rest
    else
      match splitLines rest with
      | [] => [ [ c ] ]
      | l :: ls => (c :: l) :: ls

/-- Pairs emitted for one line under a given (already updated) context. -/
def lineEmits (ctx : Chars) (line : Chars) : List (Chars × Chars) :=
  (scanLine line).filterMap (fun g => (processRaw g).map (fun raw => (raw, ctx)))

/-- The line loop of the extractor, carrying the sticky context. -/
def extractLoop : List Chars → Chars → List (Chars × Chars)
  | [], _ => []
  | line :: rest, context =>
    let context2 := updateCtx context line
    lineEmits context2 line ++ extractLoop rest context2

/-- Extract `(raw_expression, context)` pairs from the file content. -/
def extract_path_expressions (content : Chars) : List (Chars × Chars) :=
  extractLoop (splitLines content) (chars "source")

/-!
Variable resolver (`resolve_path`).
-/

/-- Variable bindings: a mapping from variable names to literal values. -/
abbrev Vars := Chars → Option Chars

/-- Match a placeholder at the head of the list: a dollar and open brace,
a non-empty run of non-brace characters, and a closing brace. -/
def headMatch : Chars → Option (Chars × Chars)
  | c :: d :: rs =>
    if c = '$' && d = '{' then
      match splitAtChar '}' rs with
      | some (inner, after) => if inner.isEmpty then none else some (inner, after)
      | none => none
    else none
  | _ => none

/-- Leftmost placeholder in the list: the text before it, its name and the
text after it. -/
def findPH : Chars → Option (Chars × Chars × Chars)
  | [] => none
  | c :: rest =>
    match headMatch (c :: rest) with
    | some (inner, after) => some ([], inner, after)
    | none => (findPH rest).map (fun t => (c :: t.1, t.2.1, t.2.2))

/-- Replace the first occurrence of `pat` in the list by `v`, modelling
Python `str.replace(pat, v, 1)`. -/
def replaceFirst : Chars → Chars → Chars → Chars
  | [], _, _ => []
  | c :: rest, pat, v =>
    if isPre pat (c :: rest) then v ++ (c :: rest).drop pat.length
    else c :: replaceFirst rest pat v

/-- The substitution loop of the resolver, with the remaining iteration
budget as fuel; the source starts the budget at twenty. -/
def resolveAux (b : Vars) : Nat → Chars → Option Chars
  | 0, out => if hasSub phTok out then none else some (replDS out)
  | fuel + 1, out =>
    if hasSub phTok out then
      match findPH out with
      | none => none
      | some (_, inner, _) =>
        match b inner with
        | none => none
        | some v => resolveAux b fuel (replaceFirst out (phString inner) v)
    else some (replDS out)

/-- Substitute variables in `expr`; `none` when unresolved variables remain. -/
def resolve_path (expr : Chars) (vars_dict : Vars) : Option Chars :=
  resolveAux vars_dict 20 expr

/-- Count of substitutions actually performed by the resolver loop. -/
def resolveStepsAux (b : Vars) : Nat → Chars → Nat
  | 0, _ => 0
  | fuel + 1, out =>
    if hasSub phTok out then
      match findPH out with
      | none => 0
      | some (_, inner, _) =>
        match b inner with
        | none => 0
        | some v => 1 + resolveStepsAux b fuel (replaceFirst out (phString inner) v)
    else 0

/-- Number of substitution iterations performed on `expr`. -/
def resolveSteps (b : Vars) (expr : Chars) : Nat := resolveStepsAux b 20 expr

/-!
Path validator (`is_file_path`, `validate_path`).  The filesystem is
abstracted as three boolean predicates on path strings; path objects are
modelled by the underlying strings, and joining a relative path onto the
base inserts a single separator.
-/

structure FS where
  exists_p : Chars → Bool
  is_dir : Chars → Bool
  is_file : Chars → Bool

def LIB_EXT : Chars := chars ".a"

def SOURCE_EXTENSIONS : List Chars :=
  [ chars ".c", chars ".cpp", chars ".h", chars ".S", chars ".hpp" ]

/-- Expected filesystem kind for a path in a given context: `true` when a
file is expected, `false` when a directory is expected. -/
def is_file_path (path_str context : Chars) : Bool :=
  if context = chars "include_dir" then false
  else if context = chars "lib" then true
  else if context = chars "source" then
    endsWithL path_str LIB_EXT || SOURCE_EXTENSIONS.any (fun e => endsWithL path_str e)
  else
    endsWithL path_str LIB_EXT || SOURCE_EXTENSIONS.any (fun e => endsWithL path_str e)

def isAbsolutePath : Chars → Bool
  | [] => false
  | c :: _ => c = '/'

def joinPath (base p : Chars) : Chars := base ++ '/' :: p

/-- Check whether the resolved path exists with the expected kind; returns
the verdict and its message. -/
def validate_path (resolved context base_path : Chars) (fs : FS) : Bool × Chars :=
  let p := if isAbsolutePath resolved then resolved else joinPath base_path resolved
  let expect_file := is_file_path resolved context
  if fs.exists_p p then
    if expect_file && fs.is_dir p then
      (false, chars "expected file, found directory: " ++ p)
    else if !expect_file && fs.is_file p then
      (false, chars "expected directory, found file: " ++ p)
    else (true, [])
  else (false, chars "missing: " ++ p)

/-!
Validation driver (`run_gni_validation`).
-/

/-- Merge of two binding sets with the second overriding the first,
modelling the dict-merge of base and board bindings. -/
def mergeVars (base over : Vars) : Vars := fun k =>
  match over k with
  | some v => some v
  | none => base k

/-- The per-combination search for a board-dependent expression.  The
first component tells whether some combination validated, the second is
the last resolution result, the last two are the increments of the
checked and unresolved counters. -/
def board_search {β : Type} (raw context : Chars) (base_vars : Vars)
    (get_board_vars : β → Vars) (chip_root : Chars) (fs : FS) :
    Option Chars → List β → Bool × Option Chars × Nat × Nat
  | prev, [] => (false, prev, 0, 0)
  | _, combo :: rest =>
    match resolve_path raw (mergeVars base_vars (get_board_vars combo)) with
    | none => (false, none, 0, 1)
    | some r =>
      if (validate_path r context chip_root fs).1 then (true, some r, 1, 0)
      else
        let t := board_search raw context base_vars get_board_vars chip_root fs (some r) rest
        (t.1, t.2.1, t.2.2.1 + 1, t.2.2.2)

/-- Accumulated state of the driver loop over one file. -/
structure RunState where
  missing : List (Chars × Chars × Chars)
  checked : Nat
  unresolved : Nat
  skipped : Nat
  seen : List (Chars × Chars)

def initialRunState : RunState :=
  { missing := [], checked := 0, unresolved := 0, skipped := 0, seen := [] }

/-- Processing of one not-yet-seen expression (the body of the driver loop
after the dedup check and the insertion into the seen set). -/
def process_new {β : Type} (base_vars : Vars) (board_combos : List β)
    (board_var_substrings : List Chars) (get_board_vars : β → Vars)
    (chip_root : Chars) (skip_slc_gen skip_conditional : Bool) (fs : FS)
    (st : RunState) (e : Chars × Chars) : RunState :=
  let raw := e.1
  let context := e.2
  let has_board_var := board_var_substrings.any (fun s => hasSub s raw)
  if skip_slc_gen && hasSub (chars "${slc_gen_path}") raw && hasSub (chars "slc_gen") raw then
    { st with skipped := st.skipped + 1 }
  else if has_board_var then
    if skip_conditional then { st with skipped := st.skipped + 1 }
    else
      let t := board_search raw context base_vars get_board_vars chip_root fs none board_combos
      let st2 := { st with checked := st.checked + t.2.2.1, unresolved := st.unresolved + t.2.2.2 }
      if !t.1 && t.2.1.isSome then
        { st2 with missing :=
            st2.missing ++ [ (raw, context, chars "(missing for all board combinations)") ] }
      else st2
  else
    match resolve_path raw base_vars with
    | none => { st with unresolved := st.unresolved + 1 }
    | some resolved =>
      let st2 := { st with checked := st.checked + 1 }
      let vr := validate_path resolved context chip_root fs
      if vr.1 then st2 else { st2 with missing := st2.missing ++ [ (raw, context, vr.2) ] }

/-- Processing of one extracted expression, with deduplication by the
pair of raw text and context. -/
def process_expr {β : Type} (base_vars : Vars) (board_combos : List β)
    (board_var_substrings : List Chars) (get_board_vars : β → Vars)
    (chip_root : Chars) (skip_slc_gen skip_conditional : Bool) (fs : FS)
    (st : RunState) (e : Chars × Chars) : RunState :=
  if e ∈ st.seen then st
  else
    process_new base_vars board_combos board_var_substrings get_board_vars
      chip_root skip_slc_gen skip_conditional fs { st with seen := e :: st.seen } e

/-- Validate the path expressions of one build-description file; returns
the missing list and the checked, unresolved and skipped counts. -/
def run_gni_validation {β : Type} (content : Chars) (base_vars : Vars)
    (board_combos : List β) (board_var_substrings : List Chars)
    (get_board_vars : β → Vars) (chip_root : Chars)
    (skip_slc_gen skip_conditional : Bool) (fs : FS) :
    List (Chars × Chars × Chars) × Nat × Nat × Nat :=
  let final := (extract_path_expressions content).foldl
    (process_expr base_vars board_combos board_var_substrings get_board_vars
      chip_root skip_slc_gen skip_conditional fs) initialRunState
  (final.missing, final.checked, final.unresolved, final.skipped)

/-!
The exit-status logic of `main`.  Command-line arguments, the two root
paths and the file contents are inputs of the model; the existence checks
on the two build-description files are boolean inputs taken from the
abstracted filesystem state.
-/

/-- Board bindings of the secondary hardware line: the combination is a
single board name. -/
def get_siwx917_board_vars (board : Chars) : Vars :=
  fun k => if k = chars "silabs_board" then some board else none

def siwx917_board_var_substrings : List Chars := [ chars "${silabs_board}" ]

structure MainEnv where
  gniExists : Bool
  gniContent : Chars
  efr32BaseVars : Vars
  efr32Combos : List (Chars × Chars × Chars)
  efr32Subs : List Chars
  efr32GetBoardVars : Chars × Chars × Chars → Vars
  chipRoot : Chars
  skipSlcGen : Bool
  skipConditional : Bool
  noSiwx917 : Bool
  wifiSdkRootSet : Bool
  siwxExists : Bool
  siwxContent : Chars
  siwxBaseVars : Vars
  siwxBoards : List Chars
  fs : FS

/-- Aggregated missing list over the primary file and, when the secondary
line is enabled, its root is set and its file exists, the secondary file. -/
def mainAllMissing (env : MainEnv) : List (Chars × Chars × Chars × Chars) :=
  let r1 := run_gni_validation env.gniContent env.efr32BaseVars env.efr32Combos
    env.efr32Subs env.efr32GetBoardVars env.chipRoot env.skipSlcGen
    env.skipConditional env.fs
  let m1 := r1.1.map (fun t => (chars "efr32_sdk.gni", t.1, t.2.1, t.2.2))
  let m2 :=
    if !env.noSiwx917 && env.wifiSdkRootSet && env.siwxExists then
      (run_gni_validation env.siwxContent env.siwxBaseVars env.siwxBoards
        siwx917_board_var_substrings get_siwx917_board_vars env.chipRoot
        env.skipSlcGen env.skipConditional env.fs).1.map
        (fun t => (chars "SiWx917_sdk.gni", t.1, t.2.1, t.2.2))
    else []
  m1 ++ m2

/-- Exit status of a run, together with the aggregated report; the report
is absent exactly when the run aborts because the primary file is missing,
before any extraction or validation. -/
def main_run (env : MainEnv) : Nat × Option (List (Chars × Chars × Chars × Chars)) :=
  if env.gniExists then
    let am := mainAllMissing env
    ((if am.isEmpty then 0 else 1), some am)
  else (1, none)

/-- A placeholder occurrence: at position `p` of `l` stand a dollar, an
open brace, the non-empty brace-free name `n` and a closing brace.  This
is what it means for an expression to reference the variable name `n`. -/
def occursAt (l : Chars) (p : Nat) (n : Chars) : Prop :=
  n ≠ [] ∧ '}' ∉ n ∧ isPre (phString n) (List.drop p l) = true

instance (l : Chars) (p : Nat) (n : Chars) : Decidable (occursAt l p n) :=
  inferInstanceAs (Decidable (n ≠ [] ∧ '}' ∉ n ∧ isPre (phString n) (List.drop p l) = true))

/-!
Basic characterisations of the string primitives.
-/

theorem isPre_iff (p : Chars) : ∀ l, isPre p l = true ↔ ∃ t, p ++ t = l := by
  induction p with
  | nil => intro l; simp [isPre]
  | cons a as ih =>
    intro l
    cases l with
    | nil => simp [isPre]
    | cons b bs =>
      simp only [isPre]
      constructor
      · intro h
        split at h
        · rcases (ih bs).mp h with ⟨t, ht⟩
          subst ht
          rename_i hab
          exact ⟨t, by simp [hab]⟩
        · exact absurd h (by simp)
      · rintro ⟨t, ht⟩
        rw [List.cons_append] at ht
        injection ht with h1 h2
        subst h1
        simp only [if_pos rfl]
        exact (ih bs).mpr ⟨t, h2⟩

theorem hasSub_iff (pat : Chars) : ∀ l, hasSub pat l = true ↔ ∃ s t, l = s ++ pat ++ t := by
  intro l
  induction l with
  | nil =>
    simp only [hasSub, List.isEmpty_iff]
    constructor
    · intro h; exact ⟨[], [], by simp [h]⟩
    · rintro ⟨s, t, hst⟩
      rcases List.append_eq_nil.mp (List.append_eq_nil.mp hst.symm).1 with ⟨_, h2⟩
      exact h2
  | cons c rest ih =>
    simp only [hasSub, Bool.or_eq_true]
    constructor
    · rintro (h | h)
      · rcases (isPre_iff pat (c :: rest)).mp h with ⟨t, ht⟩
        exact ⟨[], t, by simp [ht.symm]⟩
      · rcases ih.mp h with ⟨s, t, hst⟩
        exact ⟨c :: s, t, by simp [hst]⟩
    · rintro ⟨s, t, hst⟩
      cases s with
      | nil =>
        left
        exact (isPre_iff pat (c :: rest)).mpr ⟨t, by simpa using hst.symm⟩
      | cons x s' =>
        right
        rw [List.cons_append, List.cons_append] at hst
        injection hst with _ h2
        exact ih.mpr ⟨s', t, h2⟩

theorem isPre_append_self (p t : Chars) : isPre p (p ++ t) = true :=
  (isPre_iff p (p ++ t)).mpr ⟨t, rfl⟩

theorem hasSub_false_of_front {pat l l2 : Chars} (h : ∃ u, l2 ++ u = l)
    (hl : hasSub pat l = false) : hasSub pat l2 = false := by
  by_contra hne
  rcases h with ⟨u, hu⟩
  rcases (hasSub_iff pat l2).mp (by simpa using Bool.of_not_eq_false hne) with ⟨s, t, hst⟩
  have : hasSub pat l = true := (hasSub_iff pat l).mpr ⟨s, t ++ u, by
    subst hu; simp [hst]⟩
  simp [this] at hl

theorem hasSub_false_of_suffix {pat l l2 : Chars} (h : ∃ u, u ++ l2 = l)
    (hl : hasSub pat l = false) : hasSub pat l2 = false := by
  by_contra hne
  rcases h with ⟨u, hu⟩
  rcases (hasSub_iff pat l2).mp (by simpa using Bool.of_not_eq_false hne) with ⟨s, t, hst⟩
  have : hasSub pat l = true := (hasSub_iff pat l).mpr ⟨u ++ s, t, by
    subst hu; simp [hst]⟩
  simp [this] at hl

theorem dropTrail_front (p : Char → Bool) : ∀ l : Chars, ∃ u, dropTrail p l ++ u = l := by
  intro l
  induction l with
  | nil => exact ⟨[], rfl⟩
  | cons c rest ih =>
    rcases ih with ⟨u, hu⟩
    simp only [dropTrail]
    cases hdt : dropTrail p rest with
    | nil =>
      by_cases hc : p c = true
      · exact ⟨c :: rest, by simp [hc]⟩
      · refine ⟨rest, by simp [hc]⟩
    | cons d ds =>
      rw [hdt] at hu
      exact ⟨u, by simp [hu]⟩

theorem dropWhile_suffix (p : Char → Bool) : ∀ l : Chars, ∃ u, u ++ List.dropWhile p l = l := by
  intro l
  induction l with
  | nil => exact ⟨[], rfl⟩
  | cons c rest ih =>
    by_cases hc : p c = true
    · rcases ih with ⟨u, hu⟩
      exact ⟨c :: u, by simp [List.dropWhile, hc, hu]⟩
    · exact ⟨[], by simp [List.dropWhile, hc]⟩

theorem dropLast_front : ∀ l : Chars, ∃ u, l.dropLast ++ u = l := by
  intro l
  induction l with
  | nil => exact ⟨[], rfl⟩
  | cons c rest ih =>
    cases rest with
    | nil => exact ⟨[ c ], rfl⟩
    | cons d ds =>
      rcases ih with ⟨u, hu⟩
      exact ⟨u, by rw [List.dropLast_cons₂, List.cons_append, hu]⟩

theorem hasSub_false_pstrip {pat l : Chars} (h : hasSub pat l = false) :
    hasSub pat (pstrip l) = false := by
  have h1 : hasSub pat (List.dropWhile isPySpace l) = false :=
    hasSub_false_of_suffix (dropWhile_suffix isPySpace l) h
  exact hasSub_false_of_front (dropTrail_front isPySpace _) h1

theorem hasSub_cons_false {pat : Chars} {c : Char} {rest : Chars}
    (h : hasSub pat (c :: rest) = false) :
    isPre pat (c :: rest) = false ∧ hasSub pat rest = false := by
  simp only [hasSub, Bool.or_eq_false_iff] at h
  exact h

theorem takeUntilDS_head (d : Char) (rest : Chars) :
    takeUntilDS (d :: rest) = [] ∨ ∃ ys, takeUntilDS (d :: rest) = d :: ys := by
  cases rest with
  | nil => exact Or.inr ⟨[], rfl⟩
  | cons e rest' =>
    by_cases h : (d = '/' && e = '/') = true
    · exact Or.inl (by simp [takeUntilDS, h])
    · exact Or.inr ⟨takeUntilDS (e :: rest'), by simp [takeUntilDS, h]⟩

theorem isPre_two_false {a b x : Char} {y : Char} {zs : Chars} (hne : ¬(x = a ∧ y = b)) :
    isPre [ a, b ] (x :: y :: zs) = false := by
  simp only [isPre]
  split
  · split
    · rename_i h1 h2
      exact absurd ⟨h1.symm, h2.symm⟩ hne
    · rfl
  · rfl

theorem isPre_one_false {a x : Char} {zs : Chars} (hne : x ≠ a) :
    isPre [ a ] (x :: zs) = false := by
  simp only [isPre]
  split
  · rename_i h1
    exact absurd h1.symm hne
  · rfl

theorem takeUntilDS_noDS : ∀ l : Chars, hasSub [ '/', '/' ] (takeUntilDS l) = false := by
  intro l
  induction l using takeUntilDS.induct with
  | case1 => simp [takeUntilDS, hasSub]
  | case2 c =>
    simp only [takeUntilDS, hasSub, Bool.or_eq_false_iff]
    constructor
    · simp only [isPre]
      split <;> rfl
    · simp [hasSub]
  | case3 c d rest h => simp [takeUntilDS, h, hasSub]
  | case4 c d rest h ih =>
    have hcd : ¬(c = '/' ∧ d = '/') := by
      intro ⟨h1, h2⟩; subst h1; subst h2; simp at h
    simp only [takeUntilDS]
    rw [if_neg h]
    simp only [hasSub, Bool.or_eq_false_iff]
    refine ⟨?_, ih⟩
    rcases takeUntilDS_head d rest with htu | ⟨ys, hys⟩
    · rw [htu]
      simp only [isPre]
      split <;> rfl
    · rw [hys]
      exact isPre_two_false hcd

theorem replDS_head (c : Char) (rest : Chars) : ∃ ys, replDS (c :: rest) = c :: ys := by
  cases rest with
  | nil => exact ⟨[], rfl⟩
  | cons d rest' =>
    by_cases h : (c = '/' && d = '/') = true
    · have hc : c = '/' := of_decide_eq_true (Bool.and_eq_true_iff.mp h).1
      refine ⟨replDS rest', ?_⟩
      simp only [replDS]
      rw [if_pos h, hc]
    · exact ⟨replDS (d :: rest'), by simp only [replDS]; rw [if_neg h]⟩

theorem replDS_noDS_id : ∀ l : Chars, hasSub [ '/', '/' ] l = false → replDS l = l := by
  intro l
  induction l using replDS.induct with
  | case1 => intro _; rfl
  | case2 c => intro _; rfl
  | case3 c d rest h ih =>
    intro hs
    have hc : c = '/' := of_decide_eq_true (Bool.and_eq_true_iff.mp h).1
    have hd : d = '/' := of_decide_eq_true (Bool.and_eq_true_iff.mp h).2
    subst hc; subst hd
    exfalso
    have hpre : isPre [ '/', '/' ] ('/' :: '/' :: rest) = true := by
      simp [isPre]
    simp [hasSub, hpre] at hs
  | case4 c d rest h ih =>
    intro hs
    have hs' := (hasSub_cons_false hs).2
    simp only [replDS]
    rw [if_neg h, ih hs']

theorem noPH_replDS : ∀ l : Chars, hasSub phTok l = false → hasSub phTok (replDS l) = false := by
  intro l
  induction l using replDS.induct with
  | case1 => intro h; exact h
  | case2 c => intro h; exact h
  | case3 c d rest h ih =>
    intro hs
    have hrest : hasSub phTok rest = false :=
      (hasSub_cons_false (hasSub_cons_false hs).2).2
    simp only [replDS]
    rw [if_pos h]
    simp only [hasSub, Bool.or_eq_false_iff]
    refine ⟨?_, ih hrest⟩
    rcases hre : replDS rest with _ | ⟨y, ys⟩
    · simp [phTok, isPre]
    · exact isPre_two_false (by rintro ⟨h1, _⟩; exact absurd h1 (by decide))
  | case4 c d rest h ih =>
    intro hs
    have hrest : hasSub phTok (d :: rest) = false := (hasSub_cons_false hs).2
    simp only [replDS]
    rw [if_neg h]
    simp only [hasSub, Bool.or_eq_false_iff]
    refine ⟨?_, ih hrest⟩
    rcases replDS_head d rest with ⟨ys, hys⟩
    rw [hys]
    have hpre : isPre phTok (c :: d :: rest) = false := (hasSub_cons_false hs).1
    simp only [phTok] at hpre ⊢
    by_cases hcd : c = '$' ∧ d = '{'
    · exfalso
      rcases hcd with ⟨h1, h2⟩
      subst h1; subst h2
      simp [isPre] at hpre
    · exact isPre_two_false hcd

/-!
Properties of the per-candidate post-processing and of the extractor.
-/

theorem processRaw_props {g raw : Chars} (h : processRaw g = some raw) :
    hasSub [ '/', '/' ] raw = false ∧ hasSub [ ':' ] raw = false ∧
      endsWithL (pstrip raw) (chars ".gni") = false := by
  have h1 := takeUntilDS_noDS g
  have h2 := hasSub_false_pstrip h1
  have h3 := hasSub_false_of_front (dropTrail_front (fun c => c = ',') _) h2
  have h4 := hasSub_false_pstrip h3
  simp only [processRaw] at h
  split at h <;>
    (split at h
     · split at h
       · exact absurd h (by simp)
       · split at h
         · exact absurd h (by simp)
         · have hraw := Option.some.inj h
           subst hraw
           rename_i hcolon hgni
           refine ⟨?_, by simpa using hcolon, by simpa using hgni⟩
           first
             | exact hasSub_false_of_front (dropLast_front _) h4
             | exact h4
     · exact absurd h (by simp))

theorem mem_extractLoop_processRaw :
    ∀ (lines : List Chars) (c raw ctx : Chars),
      (raw, ctx) ∈ extractLoop lines c → ∃ g, processRaw g = some raw := by
  intro lines
  induction lines with
  | nil => intro c raw ctx h; simp [extractLoop] at h
  | cons line rest ih =>
    intro c raw ctx h
    simp only [extractLoop, List.mem_append] at h
    rcases h with h | h
    · simp only [lineEmits, List.mem_filterMap] at h
      rcases h with ⟨g, _, hg⟩
      rcases Option.map_eq_some'.mp hg with ⟨r', hr', heq⟩
      refine ⟨g, ?_⟩
      rw [hr']
      injection heq with e1 _
      rw [e1]
    · exact ih _ raw ctx h

theorem extractLoop_append :
    ∀ (ls1 ls2 : List Chars) (c : Chars),
      extractLoop (ls1 ++ ls2) c =
        extractLoop ls1 c ++ extractLoop ls2 (List.foldl updateCtx c ls1) := by
  intro ls1
  induction ls1 with
  | nil => intro ls2 c; simp [extractLoop]
  | cons line rest ih =>
    intro ls2 c
    simp only [List.cons_append, extractLoop, List.foldl_cons, List.append_eq]
    rw [ih, List.append_assoc]

/-- C10: no raw expression emitted by the extractor contains a double
slash, because the trailing-comment truncation cuts each quoted candidate
at its first double slash; concretely, a quoted expression with a doubled
path separator is emitted truncated to its part before the double slash,
never intact. -/
theorem c10_extract_no_double_sep :
    (∀ (content raw ctx : Chars), (raw, ctx) ∈ extract_path_expressions content →
      hasSub (chars "//") raw = false) ∧
    extract_path_expressions (chars "include_dirs = [ \"${root}//foo\" ]") =
      [ (chars "${root}", chars "include_dir") ] := by
  constructor
  · intro content raw ctx h
    rcases mem_extractLoop_processRaw _ _ raw ctx h with ⟨g, hg⟩
    exact (processRaw_props hg).1
  · decide

/-- Witness for C10: the general part applied to the concrete content of
its second part. -/
theorem c10_extract_no_double_sep_witness :
    hasSub (chars "//") (chars "${root}") = false :=
  c10_extract_no_double_sep.1 (chars "include_dirs = [ \"${root}//foo\" ]")
    (chars "${root}") (chars "include_dir") (by decide)

/-- C6: the extractor starts in the source context and scans lines in
order; the context a line's emissions receive is the fold of the marker
updates over all lines up to and including that line, so it is determined
by the most recent marker at or before the line and is sticky across
lines; pairs are emitted in encounter order by list append, duplicates are
kept (shown on a concrete content), and every emitted raw expression
contains no colon and does not end in the build-file extension. -/
theorem c6_extract_contexts :
    (∀ content : Chars, extract_path_expressions content =
      extractLoop (splitLines content) (chars "source")) ∧
    (∀ (ls1 : List Chars) (line : Chars) (ls2 : List Chars) (c : Chars),
      extractLoop (ls1 ++ line :: ls2) c =
        extractLoop ls1 c ++
          (lineEmits (List.foldl updateCtx c (ls1 ++ [ line ])) line ++
            extractLoop ls2 (List.foldl updateCtx c (ls1 ++ [ line ])))) ∧
    (∀ (content raw ctx : Chars), (raw, ctx) ∈ extract_path_expressions content →
      hasSub (chars ":") raw = false ∧ endsWithL (pstrip raw) (chars ".gni") = false) ∧
    extract_path_expressions (chars "include_dirs = [ \"${a}/x\", \"${a}/x\" ]") =
      [ (chars "${a}/x", chars "include_dir"), (chars "${a}/x", chars "include_dir") ] := by
  refine ⟨fun _ => rfl, ?_, ?_, by decide⟩
  · intro ls1 line ls2 c
    rw [extractLoop_append]
    simp only [extractLoop, List.foldl_append, List.foldl_cons, List.foldl_nil]
  · intro content raw ctx h
    rcases mem_extractLoop_processRaw _ _ raw ctx h with ⟨g, hg⟩
    exact ⟨(processRaw_props hg).2.1, (processRaw_props hg).2.2⟩

/-- Witness for C6: the filter part applied to a concrete content. -/
theorem c6_extract_contexts_witness :
    hasSub (chars ":") (chars "${a}/x") = false ∧
      endsWithL (pstrip (chars "${a}/x")) (chars ".gni") = false :=
  c6_extract_contexts.2.2.1 (chars "include_dirs = [ \"${a}/x\", \"${a}/x\" ]")
    (chars "${a}/x") (chars "include_dir") (by decide)

/-!
Resolver lemmas: a successful result never retains a placeholder opener,
and the iteration count is bounded by the fuel.
-/

theorem resolveAux_some_noPH (b : Vars) :
    ∀ (fuel : Nat) (out r : Chars), resolveAux b fuel out = some r →
      hasSub phTok r = false := by
  intro fuel
  induction fuel with
  | zero =>
    intro out r h
    simp only [resolveAux] at h
    split at h
    · exact absurd h (by simp)
    · rename_i hout
      have hr := Option.some.inj h
      subst hr
      exact noPH_replDS out (by simpa using hout)
  | succ n ih =>
    intro out r h
    simp only [resolveAux] at h
    split at h
    · split at h
      · exact absurd h (by simp)
      · split at h
        · exact absurd h (by simp)
        · exact ih _ r h
    · rename_i hout
      have hr := Option.some.inj h
      subst hr
      exact noPH_replDS out (by simpa using hout)

theorem resolveStepsAux_le (b : Vars) : ∀ (fuel : Nat) (out : Chars),
    resolveStepsAux b fuel out ≤ fuel := by
  intro fuel
  induction fuel with
  | zero => intro out; simp [resolveStepsAux]
  | succ n ih =>
    intro out
    simp only [resolveStepsAux]
    split
    · split
      · exact Nat.zero_le _
      · split
        · exact Nat.zero_le _
        · rw [Nat.add_comm]
          exact Nat.succ_le_succ (ih _)
    · exact Nat.zero_le _

/-- C8: the resolver performs at most twenty substitution iterations on
any input (the count of substitutions actually performed is at most the
budget of twenty), the loop always terminates, and when the budget is
exhausted while a placeholder opener remains the result is unresolved;
concretely, the self-referential binding of x to its own placeholder
resolves to none. -/
theorem c8_resolve_bounded :
    (∀ (b : Vars) (expr : Chars), resolveSteps b expr ≤ 20) ∧
    (∀ (b : Vars) (out : Chars), hasSub phTok out = true → resolveAux b 0 out = none) ∧
    resolve_path (chars "${x}")
      (fun k => if k = chars "x" then some (chars "${x}") else none) = none := by
  refine ⟨fun b expr => resolveStepsAux_le b 20 expr, ?_, by decide⟩
  intro b out h
  simp [resolveAux, h]

/-- Witness for C8: the exhausted-budget part applied concretely. -/
theorem c8_resolve_bounded_witness :
    resolveAux (fun _ => none) 0 (chars "${y}") = none :=
  c8_resolve_bounded.2.1 (fun _ => none) (chars "${y}") (by decide)

/-- C3 counterexample: resolving a concrete expression containing a
tripled separator succeeds, but re-resolving the result with the same
bindings returns a different string, refuting idempotence as stated. -/
theorem c3_counterexample :
    resolve_path (chars "a///b") (fun _ => none) = some (chars "a//b") ∧
      resolve_path (chars "a//b") (fun _ => none) = some (chars "a/b") ∧
      chars "a/b" ≠ chars "a//b" := by decide

theorem resolveAux_noPH (b : Vars) (fuel : Nat) (out : Chars)
    (h : hasSub phTok out = false) : resolveAux b fuel out = some (replDS out) := by
  cases fuel with
  | zero => simp [resolveAux, h]
  | succ n => simp [resolveAux, h]

/-- C3 (amended): when resolution succeeds and its result contains no
doubled separator, re-resolving the result with the identical bindings
returns the same string. -/
theorem c3_resolve_idempotent (expr : Chars) (b : Vars) (r : Chars)
    (h : resolve_path expr b = some r) (hds : hasSub (chars "//") r = false) :
    resolve_path r b = some r := by
  have hph : hasSub phTok r = false := resolveAux_some_noPH b 20 expr r h
  show resolveAux b 20 r = some r
  rw [resolveAux_noPH b 20 r hph, replDS_noDS_id r hds]

/-- Witness for C3: the amended idempotence applied concretely. -/
theorem c3_resolve_idempotent_witness :
    resolve_path (chars "r/x")
      (fun k => if k = chars "a" then some (chars "r") else none) = some (chars "r/x") :=
  c3_resolve_idempotent (chars "${a}/x")
    (fun k => if k = chars "a" then some (chars "r") else none)
    (chars "r/x") (by decide) (by decide)

/-- C5: the expected filesystem kind is a file for the lib context, a
directory for the include-directory context and, for the source context,
a file exactly when the path ends in a known source or library extension;
an existing path of the wrong kind yields a kind-mismatch verdict in both
directions: a lib-context path whose resolved location exists as a
directory yields the expected-file message, and a directory-expecting
context path whose resolved location exists as a file yields the
expected-directory message; both mismatch messages differ from the
missing message on every path. -/
theorem c5_validate_kind_policy :
    (∀ p : Chars, is_file_path p (chars "lib") = true) ∧
    (∀ p : Chars, is_file_path p (chars "include_dir") = false) ∧
    (∀ p : Chars, is_file_path p (chars "source") =
      (endsWithL p LIB_EXT || SOURCE_EXTENSIONS.any (fun e => endsWithL p e))) ∧
    (∀ (fs : FS) (root p : Chars),
      fs.exists_p (if isAbsolutePath p then p else joinPath root p) = true →
      fs.is_dir (if isAbsolutePath p then p else joinPath root p) = true →
      validate_path p (chars "lib") root fs =
        (false, chars "expected file, found directory: " ++
          (if isAbsolutePath p then p else joinPath root p))) ∧
    (∀ q : Chars, chars "expected file, found directory: " ++ q ≠ chars "missing: " ++ q) ∧
    (∀ (fs : FS) (root p : Chars),
      fs.exists_p (if isAbsolutePath p then p else joinPath root p) = true →
      fs.is_file (if isAbsolutePath p then p else joinPath root p) = true →
      validate_path p (chars "include_dir") root fs =
        (false, chars "expected directory, found file: " ++
          (if isAbsolutePath p then p else joinPath root p))) ∧
    (∀ q : Chars, chars "expected directory, found file: " ++ q ≠ chars "missing: " ++ q) := by
  have hlib : ∀ p : Chars, is_file_path p (chars "lib") = true := by
    intro p
    unfold is_file_path
    rw [if_neg (by decide), if_pos rfl]
  have hinc : ∀ p : Chars, is_file_path p (chars "include_dir") = false := by
    intro p
    unfold is_file_path
    rw [if_pos rfl]
  refine ⟨hlib, hinc, ?_, ?_, ?_, ?_, ?_⟩
  · intro p
    unfold is_file_path
    rw [if_neg (by decide), if_neg (by decide), if_pos rfl]
  · intro fs root p h1 h2
    simp only [validate_path, h1, hlib p, h2, if_true]
    simp
  · intro q h
    have h1 : (chars "expected file, found directory: " ++ q).head? = some 'e' := rfl
    rw [h] at h1
    have h2 : (chars "missing: " ++ q).head? = some 'm' := rfl
    rw [h2] at h1
    exact absurd h1 (by decide)
  · intro fs root p h1 h2
    simp only [validate_path, h1, hinc p, h2, if_true]
    simp
  · intro q h
    have h1 : (chars "expected directory, found file: " ++ q).head? = some 'e' := rfl
    rw [h] at h1
    have h2 : (chars "missing: " ++ q).head? = some 'm' := rfl
    rw [h2] at h1
    exact absurd h1 (by decide)

/-- Witness for C5: both kind-mismatch parts applied with concrete
filesystems, one in which every path is an existing directory and one in
which every path is an existing file. -/
theorem c5_validate_kind_policy_witness :
    (validate_path (chars "x.a") (chars "lib") (chars "/r")
      { exists_p := fun _ => true, is_dir := fun _ => true, is_file := fun _ => false } =
      (false, chars "expected file, found directory: " ++ chars "/r/x.a")) ∧
    (validate_path (chars "inc") (chars "include_dir") (chars "/r")
      { exists_p := fun _ => true, is_dir := fun _ => false, is_file := fun _ => true } =
      (false, chars "expected directory, found file: " ++ chars "/r/inc")) :=
  ⟨c5_validate_kind_policy.2.2.2.1
    { exists_p := fun _ => true, is_dir := fun _ => true, is_file := fun _ => false }
    (chars "/r") (chars "x.a") (by decide) (by decide),
   c5_validate_kind_policy.2.2.2.2.2.1
    { exists_p := fun _ => true, is_dir := fun _ => false, is_file := fun _ => true }
    (chars "/r") (chars "inc") (by decide) (by decide)⟩

/-- C9: with the skip-conditional flag set, a not-yet-seen expression that
references a board-dependent variable name only increments the skipped
counter and records the pair as seen: the missing list and the checked and
unresolved counters are unchanged, and neither resolution nor validation
is reached because both skip branches return immediately. -/
theorem c9_skip_conditional {β : Type} (base_vars : Vars) (board_combos : List β)
    (board_var_substrings : List Chars) (get_board_vars : β → Vars)
    (chip_root : Chars) (skip_slc_gen : Bool) (fs : FS)
    (st : RunState) (e : Chars × Chars)
    (hseen : e ∉ st.seen)
    (hboard : board_var_substrings.any (fun s => hasSub s e.1) = true) :
    process_expr base_vars board_combos board_var_substrings get_board_vars
      chip_root skip_slc_gen true fs st e =
      { st with seen := e :: st.seen, skipped := st.skipped + 1 } := by
  simp only [process_expr, if_neg hseen, process_new, hboard]
  split
  · rfl
  · rfl

/-- Witness for C9 at a concrete state and expression. -/
theorem c9_skip_conditional_witness :
    @process_expr Unit (fun _ => none) [] [ chars "${silabs_board}" ]
      (fun _ => fun _ => none) (chars "/r") false true
      { exists_p := fun _ => false, is_dir := fun _ => false, is_file := fun _ => false }
      initialRunState (chars "${silabs_board}/x", chars "lib") =
      { initialRunState with
          seen := [ (chars "${silabs_board}/x", chars "lib") ], skipped := 1 } :=
  c9_skip_conditional (fun _ => none) [] [ chars "${silabs_board}" ]
    (fun _ => fun _ => none) (chars "/r") false
    { exists_p := fun _ => false, is_dir := fun _ => false, is_file := fun _ => false }
    initialRunState (chars "${silabs_board}/x", chars "lib")
    (by decide) (by decide)

/-!
Deduplication in the driver loop.
-/

theorem process_new_seen {β : Type} (base_vars : Vars) (board_combos : List β)
    (subs : List Chars) (gbv : β → Vars) (root : Chars) (s1 s2 : Bool) (fs : FS)
    (st : RunState) (e : Chars × Chars) :
    (process_new base_vars board_combos subs gbv root s1 s2 fs st e).seen = st.seen := by
  simp only [process_new]
  repeat' split
  all_goals rfl

theorem process_expr_mem_seen {β : Type} (base_vars : Vars) (board_combos : List β)
    (subs : List Chars) (gbv : β → Vars) (root : Chars) (s1 s2 : Bool) (fs : FS)
    (st : RunState) (e : Chars × Chars) :
    e ∈ (process_expr base_vars board_combos subs gbv root s1 s2 fs st e).seen := by
  unfold process_expr
  split
  · rename_i h
    exact h
  · rw [process_new_seen]
    exact List.mem_cons_self e st.seen

theorem process_expr_seen_mono {β : Type} (base_vars : Vars) (board_combos : List β)
    (subs : List Chars) (gbv : β → Vars) (root : Chars) (s1 s2 : Bool) (fs : FS)
    (st : RunState) (x a : Chars × Chars) (h : a ∈ st.seen) :
    a ∈ (process_expr base_vars board_combos subs gbv root s1 s2 fs st x).seen := by
  unfold process_expr
  split
  · exact h
  · rw [process_new_seen]
    exact List.mem_cons_of_mem _ h

theorem process_expr_idem {β : Type} (base_vars : Vars) (board_combos : List β)
    (subs : List Chars) (gbv : β → Vars) (root : Chars) (s1 s2 : Bool) (fs : FS)
    (st : RunState) (e : Chars × Chars) (h : e ∈ st.seen) :
    process_expr base_vars board_combos subs gbv root s1 s2 fs st e = st := by
  unfold process_expr
  rw [if_pos h]

theorem foldl_seen_mono {β : Type} (base_vars : Vars) (board_combos : List β)
    (subs : List Chars) (gbv : β → Vars) (root : Chars) (s1 s2 : Bool) (fs : FS) :
    ∀ (l : List (Chars × Chars)) (st : RunState) (a : Chars × Chars), a ∈ st.seen →
      a ∈ (l.foldl (process_expr base_vars board_combos subs gbv root s1 s2 fs) st).seen := by
  intro l
  induction l with
  | nil => intro st a h; exact h
  | cons x xs ih =>
    intro st a h
    rw [List.foldl_cons]
    exact ih _ a (process_expr_seen_mono base_vars board_combos subs gbv root s1 s2 fs st x a h)

/-- C4: the run over a file is the fold of the per-expression step over
the extracted expressions, and that fold processes every distinct pair at
most once: the fold over an expression list in which a pair occurs again
after an earlier occurrence equals the fold with the later occurrence
removed, so the duplicate triggers no state change at all. -/
theorem c4_dedup {β : Type} (base_vars : Vars) (board_combos : List β)
    (subs : List Chars) (gbv : β → Vars) (root : Chars) (s1 s2 : Bool) (fs : FS) :
    (∀ content : Chars,
      run_gni_validation content base_vars board_combos subs gbv root s1 s2 fs =
        (((extract_path_expressions content).foldl
            (process_expr base_vars board_combos subs gbv root s1 s2 fs)
            initialRunState).missing,
          ((extract_path_expressions content).foldl
            (process_expr base_vars board_combos subs gbv root s1 s2 fs)
            initialRunState).checked,
          ((extract_path_expressions content).foldl
            (process_expr base_vars board_combos subs gbv root s1 s2 fs)
            initialRunState).unresolved,
          ((extract_path_expressions content).foldl
            (process_expr base_vars board_combos subs gbv root s1 s2 fs)
            initialRunState).skipped)) ∧
    (∀ (l1 : List (Chars × Chars)) (e : Chars × Chars) (l2 l3 : List (Chars × Chars))
        (st : RunState),
      (l1 ++ e :: l2 ++ e :: l3).foldl
          (process_expr base_vars board_combos subs gbv root s1 s2 fs) st =
        (l1 ++ e :: l2 ++ l3).foldl
          (process_expr base_vars board_combos subs gbv root s1 s2 fs) st) := by
  constructor
  · intro content
    rfl
  · intro l1 e l2 l3 st
    rw [List.foldl_append, List.foldl_append, List.foldl_cons, List.foldl_cons,
      List.foldl_append, List.foldl_append]
    have hmem : e ∈ ((l2.foldl (process_expr base_vars board_combos subs gbv root s1 s2 fs)
        (process_expr base_vars board_combos subs gbv root s1 s2 fs
          (l1.foldl (process_expr base_vars board_combos subs gbv root s1 s2 fs) st) e))).seen :=
      foldl_seen_mono base_vars board_combos subs gbv root s1 s2 fs l2 _ e
        (process_expr_mem_seen base_vars board_combos subs gbv root s1 s2 fs _ e)
    rw [List.foldl_cons, process_expr_idem base_vars board_combos subs gbv root s1 s2 fs _ e hmem]

/-- C7: the exit status of the modelled run is non-zero exactly when the
primary build-description file does not exist or the aggregated missing
list is non-empty, and the report is absent exactly when the primary file
does not exist (the run aborts before extraction or validation); in
particular the unresolved and skipped counts never influence the status. -/
theorem c7_exit_status (env : MainEnv) :
    ((main_run env).1 ≠ 0 ↔ (env.gniExists = false ∨ mainAllMissing env ≠ [])) ∧
    ((main_run env).2 = none ↔ env.gniExists = false) := by
  cases hge : env.gniExists with
  | false => simp [main_run, hge]
  | true =>
    simp only [main_run, hge, if_true]
    constructor
    · by_cases hm : mainAllMissing env = []
      · simp [hm]
      · simp [hm, List.isEmpty_iff]
    · simp

/-- C1: for a board-dependent expression processed with the
skip-conditional flag unset, the driver searches the combinations in
discovery order with board bindings merged over base bindings: a
combination that fails to resolve stops the search with one unresolved
increment, no check and no missing verdict; a combination that resolves
and validates stops the search successfully; checked counts one per
combination attempted, so with three combinations where only the second
validates, checked grows by exactly two, the third combination is never
consulted and the expression is not in the missing list; when no
combination validates but the last resolution succeeded, exactly one
missing verdict with the missing-for-all message is recorded. -/
theorem c1_board_combination_search {β : Type} :
    (∀ (raw ctx : Chars) (base : Vars) (gbv : β → Vars) (root : Chars) (fs : FS)
        (prev : Option Chars) (c : β) (rest : List β),
      resolve_path raw (mergeVars base (gbv c)) = none →
      board_search raw ctx base gbv root fs prev (c :: rest) = (false, none, 0, 1)) ∧
    (∀ (raw ctx : Chars) (base : Vars) (gbv : β → Vars) (root : Chars) (fs : FS)
        (prev : Option Chars) (c : β) (rest : List β) (r : Chars),
      resolve_path raw (mergeVars base (gbv c)) = some r →
      (validate_path r ctx root fs).1 = true →
      board_search raw ctx base gbv root fs prev (c :: rest) = (true, some r, 1, 0)) ∧
    (∀ (raw ctx : Chars) (base : Vars) (gbv : β → Vars) (root : Chars) (fs : FS)
        (prev : Option Chars) (c1 c2 c3 : β) (r1 r2 : Chars),
      resolve_path raw (mergeVars base (gbv c1)) = some r1 →
      (validate_path r1 ctx root fs).1 = false →
      resolve_path raw (mergeVars base (gbv c2)) = some r2 →
      (validate_path r2 ctx root fs).1 = true →
      board_search raw ctx base gbv root fs prev [ c1, c2, c3 ] = (true, some r2, 2, 0)) ∧
    (∀ (base : Vars) (gbv : β → Vars) (root : Chars) (s1 : Bool) (fs : FS)
        (subs : List Chars) (st : RunState) (e : Chars × Chars) (c1 c2 c3 : β)
        (r1 r2 : Chars),
      e ∉ st.seen →
      (s1 && hasSub (chars "${slc_gen_path}") e.1 && hasSub (chars "slc_gen") e.1) = false →
      subs.any (fun s => hasSub s e.1) = true →
      resolve_path e.1 (mergeVars base (gbv c1)) = some r1 →
      (validate_path r1 e.2 root fs).1 = false →
      resolve_path e.1 (mergeVars base (gbv c2)) = some r2 →
      (validate_path r2 e.2 root fs).1 = true →
      process_expr base [ c1, c2, c3 ] subs gbv root s1 false fs st e =
        { st with seen := e :: st.seen, checked := st.checked + 2 }) ∧
    (∀ (base : Vars) (combos : List β) (gbv : β → Vars) (root : Chars) (s1 : Bool)
        (fs : FS) (subs : List Chars) (st : RunState) (e : Chars × Chars)
        (r : Chars) (cd ud : Nat),
      e ∉ st.seen →
      (s1 && hasSub (chars "${slc_gen_path}") e.1 && hasSub (chars "slc_gen") e.1) = false →
      subs.any (fun s => hasSub s e.1) = true →
      board_search e.1 e.2 base gbv root fs none combos = (false, some r, cd, ud) →
      process_expr base combos subs gbv root s1 false fs st e =
        { st with
            seen := e :: st.seen,
            checked := st.checked + cd,
            unresolved := st.unresolved + ud,
            missing := st.missing ++
              [ (e.1, e.2, chars "(missing for all board combinations)") ] }) ∧
    (∀ (base : Vars) (combos : List β) (gbv : β → Vars) (root : Chars) (s1 : Bool)
        (fs : FS) (subs : List Chars) (st : RunState) (e : Chars × Chars)
        (cd ud : Nat),
      e ∉ st.seen →
      (s1 && hasSub (chars "${slc_gen_path}") e.1 && hasSub (chars "slc_gen") e.1) = false →
      subs.any (fun s => hasSub s e.1) = true →
      board_search e.1 e.2 base gbv root fs none combos = (false, none, cd, ud) →
      process_expr base combos subs gbv root s1 false fs st e =
        { st with
            seen := e :: st.seen,
            checked := st.checked + cd,
            unresolved := st.unresolved + ud }) := by
  have hA : ∀ (raw ctx : Chars) (base : Vars) (gbv : β → Vars) (root : Chars) (fs : FS)
      (prev : Option Chars) (c : β) (rest : List β),
      resolve_path raw (mergeVars base (gbv c)) = none →
      board_search raw ctx base gbv root fs prev (c :: rest) = (false, none, 0, 1) := by
    intro raw ctx base gbv root fs prev c rest hres
    simp only [board_search, hres]
  have hB : ∀ (raw ctx : Chars) (base : Vars) (gbv : β → Vars) (root : Chars) (fs : FS)
      (prev : Option Chars) (c : β) (rest : List β) (r : Chars),
      resolve_path raw (mergeVars base (gbv c)) = some r →
      (validate_path r ctx root fs).1 = true →
      board_search raw ctx base gbv root fs prev (c :: rest) = (true, some r, 1, 0) := by
    intro raw ctx base gbv root fs prev c rest r hres hval
    simp only [board_search, hres, hval, if_true]
  have hstep : ∀ (raw ctx : Chars) (base : Vars) (gbv : β → Vars) (root : Chars)
      (fs : FS) (prev : Option Chars) (c : β) (rest : List β),
      board_search raw ctx base gbv root fs prev (c :: rest) =
        (match resolve_path raw (mergeVars base (gbv c)) with
          | none => (false, none, 0, 1)
          | some r =>
            if (validate_path r ctx root fs).1 then (true, some r, 1, 0)
            else
              ((board_search raw ctx base gbv root fs (some r) rest).1,
                (board_search raw ctx base gbv root fs (some r) rest).2.1,
                (board_search raw ctx base gbv root fs (some r) rest).2.2.1 + 1,
                (board_search raw ctx base gbv root fs (some r) rest).2.2.2)) :=
    fun _ _ _ _ _ _ _ _ _ => rfl
  have hC : ∀ (raw ctx : Chars) (base : Vars) (gbv : β → Vars) (root : Chars) (fs : FS)
      (prev : Option Chars) (c1 c2 c3 : β) (r1 r2 : Chars),
      resolve_path raw (mergeVars base (gbv c1)) = some r1 →
      (validate_path r1 ctx root fs).1 = false →
      resolve_path raw (mergeVars base (gbv c2)) = some r2 →
      (validate_path r2 ctx root fs).1 = true →
      board_search raw ctx base gbv root fs prev [ c1, c2, c3 ] = (true, some r2, 2, 0) := by
    intro raw ctx base gbv root fs prev c1 c2 c3 r1 r2 h1 h2 h3 h4
    have hinner := hB raw ctx base gbv root fs (some r1) c2 [ c3 ] r2 h3 h4
    rw [hstep, h1]
    dsimp only
    rw [h2, hinner]
    rfl
  refine ⟨hA, hB, hC, ?_, ?_, ?_⟩
  · intro base gbv root s1 fs subs st e c1 c2 c3 r1 r2 hseen hslc hboard h1 h2 h3 h4
    have hbs := hC e.1 e.2 base gbv root fs none c1 c2 c3 r1 r2 h1 h2 h3 h4
    simp only [process_expr, if_neg hseen, process_new, hslc, hboard, hbs]
    rfl
  · intro base combos gbv root s1 fs subs st e r cd ud hseen hslc hboard hbs
    simp only [process_expr, if_neg hseen, process_new, hslc, hboard, hbs]
    rfl
  · intro base combos gbv root s1 fs subs st e cd ud hseen hslc hboard hbs
    simp only [process_expr, if_neg hseen, process_new, hslc, hboard, hbs]
    rfl

/-- Witness for C1: the three-combination scenario applied concretely;
only the second combination resolves to an existing path. -/
theorem c1_board_combination_search_witness :
    @process_expr Chars (fun _ => none) [ chars "A", chars "B", chars "C" ]
      [ chars "${silabs_board}" ]
      (fun combo => fun k => if k = chars "silabs_board" then some combo else none)
      (chars "/r") false false
      { exists_p := fun p => decide (p = chars "/r/B"),
        is_dir := fun p => decide (p = chars "/r/B"),
        is_file := fun _ => false }
      initialRunState (chars "${silabs_board}", chars "include_dir") =
      { initialRunState with
          seen := [ (chars "${silabs_board}", chars "include_dir") ], checked := 2 } :=
  c1_board_combination_search.2.2.2.1 (fun _ => none)
    (fun combo => fun k => if k = chars "silabs_board" then some combo else none)
    (chars "/r") false
    { exists_p := fun p => decide (p = chars "/r/B"),
      is_dir := fun p => decide (p = chars "/r/B"),
      is_file := fun _ => false }
    [ chars "${silabs_board}" ] initialRunState
    (chars "${silabs_board}", chars "include_dir")
    (chars "A") (chars "B") (chars "C") (chars "A") (chars "B")
    (by decide) (by decide) (by decide) (by decide) (by decide) (by decide) (by decide)

/-!
Structure of the leftmost-placeholder search and of first-occurrence
replacement, towards the unresolved-variable contract of the resolver.
-/

theorem splitAtChar_sound (c : Char) :
    ∀ (l a b : Chars), splitAtChar c l = some (a, b) → l = a ++ c :: b ∧ c ∉ a := by
  intro l
  induction l with
  | nil => intro a b h; simp [splitAtChar] at h
  | cons x xs ih =>
    intro a b h
    simp only [splitAtChar] at h
    by_cases hx : x = c
    · rw [if_pos hx] at h
      obtain ⟨h1, h2⟩ := Prod.mk.inj (Option.some.inj h)
      subst hx
      constructor
      · rw [← h1, ← h2]; rfl
      · rw [← h1]; simp
    · rw [if_neg hx] at h
      rcases Option.map_eq_some'.mp h with ⟨⟨a', b'⟩, hsp, heq⟩
      obtain ⟨h1, h2⟩ := Prod.mk.inj heq
      subst h1; subst h2
      rcases ih a' b' hsp with ⟨hdec, hnot⟩
      refine ⟨by rw [hdec, List.cons_append], ?_⟩
      intro hmem
      rcases List.mem_cons.mp hmem with hh | hh
      · exact hx hh.symm
      · exact hnot hh

theorem splitAtChar_of_decomp (c : Char) :
    ∀ (a b : Chars), c ∉ a → splitAtChar c (a ++ c :: b) = some (a, b) := by
  intro a
  induction a with
  | nil => intro b _; simp [splitAtChar]
  | cons x a' ih =>
    intro b hmem
    have hx : ¬(x = c) := fun h => hmem (by rw [h]; exact List.mem_cons_self c a')
    have ha' : c ∉ a' := fun h => hmem (List.mem_cons_of_mem x h)
    rw [List.cons_append]
    simp only [splitAtChar]
    rw [if_neg hx, ih b ha']
    rfl

theorem headMatch_sound :
    ∀ (l i a : Chars), headMatch l = some (i, a) →
      l = phString i ++ a ∧ i ≠ [] ∧ '}' ∉ i := by
  intro l i a h
  rcases l with _ | ⟨c, _ | ⟨d, rs⟩⟩
  · simp [headMatch] at h
  · simp [headMatch] at h
  · simp only [headMatch] at h
    by_cases hcd : (c = '$' && d = '{') = true
    · rw [if_pos hcd] at h
      split at h
      · rename_i inner after hsp
        split at h
        · exact absurd h (by simp)
        · rename_i hne
          obtain ⟨h1, h2⟩ := Prod.mk.inj (Option.some.inj h)
          subst h1; subst h2
          have hc : c = '$' := of_decide_eq_true (Bool.and_eq_true_iff.mp hcd).1
          have hd : d = '{' := of_decide_eq_true (Bool.and_eq_true_iff.mp hcd).2
          subst hc; subst hd
          rcases splitAtChar_sound '}' rs inner after hsp with ⟨hdec, hnot⟩
          refine ⟨?_, ?_, hnot⟩
          · rw [hdec]; simp [phString]
          · intro hinner
            rw [hinner] at hne
            exact hne rfl
      · exact absurd h (by simp)
    · rw [if_neg hcd] at h
      exact absurd h (by simp)

theorem occursAt_zero_headMatch {l n : Chars} (h : occursAt l 0 n) :
    ∃ t, headMatch l = some (n, t) := by
  rcases h with ⟨hne, hbr, hpre⟩
  rw [List.drop_zero] at hpre
  rcases (isPre_iff (phString n) l).mp hpre with ⟨t, ht⟩
  have hl : l = '$' :: '{' :: (n ++ '}' :: t) := by rw [← ht]; simp [phString]
  refine ⟨t, ?_⟩
  rw [hl]
  simp only [headMatch]
  rw [if_pos (by simp), splitAtChar_of_decomp '}' n t hbr]
  show (if n.isEmpty = true then none else some (n, t)) = some (n, t)
  have hni : ¬(n.isEmpty = true) := by
    cases n with
    | nil => exact absurd rfl hne
    | cons y ys => simp
  rw [if_neg hni]

theorem occursAt_cons_succ {c : Char} {l : Chars} {p : Nat} {n : Chars} :
    occursAt (c :: l) (p + 1) n ↔ occursAt l p n := by
  simp [occursAt, List.drop_succ_cons]

theorem findPH_sound :
    ∀ (l bf i a : Chars), findPH l = some (bf, i, a) →
      l = bf ++ phString i ++ a ∧ i ≠ [] ∧ '}' ∉ i := by
  intro l
  induction l with
  | nil => intro bf i a h; simp [findPH] at h
  | cons c rest ih =>
    intro bf i a h
    simp only [findPH] at h
    split at h
    · rename_i inner after hm
      obtain ⟨h1, h2⟩ := Prod.mk.inj (Option.some.inj h)
      obtain ⟨h2a, h2b⟩ := Prod.mk.inj h2
      subst h1; subst h2a; subst h2b
      rcases headMatch_sound _ _ _ hm with ⟨hdec, hne, hbr⟩
      exact ⟨by simpa using hdec, hne, hbr⟩
    · rename_i hm
      rcases Option.map_eq_some'.mp h with ⟨⟨bf', i', a'⟩, hfp, heq⟩
      obtain ⟨h1, h2⟩ := Prod.mk.inj heq
      obtain ⟨h2a, h2b⟩ := Prod.mk.inj h2
      subst h1; subst h2a; subst h2b
      rcases ih bf' i' a' hfp with ⟨hdec, hne, hbr⟩
      refine ⟨?_, hne, hbr⟩
      show c :: rest = (c :: bf') ++ phString i' ++ a'
      rw [hdec]
      simp

theorem findPH_min :
    ∀ (l bf i a : Chars), findPH l = some (bf, i, a) →
      ∀ (p : Nat) (n : Chars), p < bf.length → ¬ occursAt l p n := by
  intro l
  induction l with
  | nil => intro bf i a h; simp [findPH] at h
  | cons c rest ih =>
    intro bf i a h p n hp hocc
    simp only [findPH] at h
    split at h
    · obtain ⟨h1, h2⟩ := Prod.mk.inj (Option.some.inj h)
      rw [← h1] at hp
      simp at hp
    · rename_i hm
      rcases Option.map_eq_some'.mp h with ⟨⟨bf', i', a'⟩, hfp, heq⟩
      obtain ⟨h1, h2⟩ := Prod.mk.inj heq
      obtain ⟨h2a, h2b⟩ := Prod.mk.inj h2
      subst h1; subst h2a; subst h2b
      cases p with
      | zero =>
        rcases occursAt_zero_headMatch hocc with ⟨t, hsome⟩
        rw [hm] at hsome
        exact absurd hsome (by simp)
      | succ p' =>
        exact ih bf' i' a' hfp p' n (by simpa using hp) (occursAt_cons_succ.mp hocc)

theorem findPH_none_no_occ :
    ∀ (l : Chars), findPH l = none → ∀ (p : Nat) (n : Chars), ¬ occursAt l p n := by
  intro l
  induction l with
  | nil =>
    intro _ p n hocc
    rcases hocc with ⟨hne, _, hpre⟩
    rcases n with _ | ⟨x, xs⟩
    · exact hne rfl
    · simp [List.drop_nil, phString, isPre] at hpre
  | cons c rest ih =>
    intro h p n hocc
    simp only [findPH] at h
    split at h
    · exact absurd h (by simp)
    · rename_i hm
      have hrest : findPH rest = none := Option.map_eq_none'.mp h
      cases p with
      | zero =>
        rcases occursAt_zero_headMatch hocc with ⟨t, hsome⟩
        rw [hm] at hsome
        exact absurd hsome (by simp)
      | succ p' =>
        exact ih hrest p' n (occursAt_cons_succ.mp hocc)

theorem isPre_trans {a b c : Chars} (h1 : isPre a b = true) (h2 : isPre b c = true) :
    isPre a c = true := by
  rcases (isPre_iff a b).mp h1 with ⟨t, ht⟩
  rcases (isPre_iff b c).mp h2 with ⟨s, hs⟩
  exact (isPre_iff a c).mpr ⟨t ++ s, by rw [← hs, ← ht]; simp⟩

theorem hasSub_of_isPre_drop (pat : Chars) :
    ∀ (l : Chars) (p : Nat), isPre pat (List.drop p l) = true → hasSub pat l = true := by
  intro l
  induction l with
  | nil =>
    intro p h
    rw [List.drop_nil] at h
    cases pat with
    | nil => rfl
    | cons x xs => simp [isPre] at h
  | cons c rest ih =>
    intro p h
    cases p with
    | zero =>
      rw [List.drop_zero] at h
      simp [hasSub, h]
    | succ p' =>
      rw [List.drop_succ_cons] at h
      simp [hasSub, ih p' h]

theorem occ_implies_hasSub {l : Chars} {p : Nat} {n : Chars} (h : occursAt l p n) :
    hasSub phTok l = true := by
  rcases h with ⟨_, _, hpre⟩
  have hpt : isPre phTok (phString n) = true := by simp [phTok, phString, isPre]
  exact hasSub_of_isPre_drop phTok l p (isPre_trans hpt hpre)

theorem names_eq :
    ∀ (n i t : Chars), '}' ∉ n → '}' ∉ i →
      isPre (n ++ [ '}' ]) (i ++ '}' :: t) = true → n = i := by
  intro n
  induction n with
  | nil =>
    intro i t _ hi h
    cases i with
    | nil => rfl
    | cons x i' =>
      rw [List.nil_append, List.cons_append] at h
      simp only [isPre] at h
      split at h
      · rename_i hx
        have : '}' ∈ x :: i' := by rw [← hx]; exact List.mem_cons_self _ _
        exact absurd this hi
      · exact absurd h (by simp)
  | cons y n' ih =>
    intro i t hn hi h
    cases i with
    | nil =>
      rw [List.nil_append, List.cons_append] at h
      simp only [isPre] at h
      split at h
      · rename_i hy
        have : '}' ∈ y :: n' := by rw [hy]; exact List.mem_cons_self _ _
        exact absurd this hn
      · exact absurd h (by simp)
    | cons x i' =>
      rw [List.cons_append, List.cons_append] at h
      simp only [isPre] at h
      split at h
      · rename_i hyx
        subst hyx
        rw [ih i' t (fun hm => hn (List.mem_cons_of_mem y hm))
          (fun hm => hi (List.mem_cons_of_mem y hm)) h]
      · exact absurd h (by simp)

theorem occ_zero_name_eq {i a n : Chars} (hbr : '}' ∉ i)
    (hocc : occursAt (phString i ++ a) 0 n) : n = i := by
  rcases hocc with ⟨hne, hn, hpre⟩
  rw [List.drop_zero] at hpre
  have hshape : phString i ++ a = '$' :: '{' :: (i ++ '}' :: a) := by simp [phString]
  rw [hshape] at hpre
  simp only [phString, isPre, if_pos rfl] at hpre
  exact names_eq n i a hn hbr hpre

theorem occ_in_ph_tail :
    ∀ (i : Chars) (q : Nat) (n a : Chars), '$' ∉ i → n ≠ [] → '}' ∉ n →
      isPre (phString n) (List.drop q (i ++ '}' :: a)) = true →
      ∃ r, occursAt a r n := by
  intro i
  induction i with
  | nil =>
    intro q n a _ hne hbr hpre
    cases q with
    | zero =>
      rw [List.nil_append, List.drop_zero] at hpre
      simp [phString, isPre] at hpre
    | succ q' =>
      rw [List.nil_append, List.drop_succ_cons] at hpre
      exact ⟨q', hne, hbr, hpre⟩
  | cons c i' ih =>
    intro q n a hd hne hbr hpre
    cases q with
    | zero =>
      have hc : ¬('$' = c) := by
        intro h
        exact hd (by rw [← h] at *; exact List.mem_cons_self _ _)
      rw [List.cons_append, List.drop_zero] at hpre
      simp only [phString, isPre] at hpre
      rw [if_neg hc] at hpre
      exact absurd hpre (by simp)
    | succ q' =>
      rw [List.cons_append, List.drop_succ_cons] at hpre
      exact ih q' n a (fun hm => hd (List.mem_cons_of_mem c hm)) hne hbr hpre

theorem occ_cases :
    ∀ (bf i a : Chars) (p : Nat) (n : Chars), '$' ∉ i → '}' ∉ i →
      occursAt (bf ++ phString i ++ a) p n → bf.length ≤ p →
      (p = bf.length ∧ n = i) ∨ ∃ q, occursAt a q n := by
  intro bf
  induction bf with
  | nil =>
    intro i a p n hd hbr hocc _
    have hshape : ([] : Chars) ++ phString i ++ a = '$' :: '{' :: (i ++ '}' :: a) := by
      simp [phString]
    rcases p with _ | ⟨_ | q⟩
    · left
      exact ⟨rfl, occ_zero_name_eq hbr (by simpa using hocc)⟩
    · exfalso
      rcases hocc with ⟨hne, hn, hpre⟩
      rw [hshape, List.drop_succ_cons, List.drop_zero] at hpre
      simp [phString, isPre] at hpre
    · rcases hocc with ⟨hne, hn, hpre⟩
      rw [hshape, List.drop_succ_cons, List.drop_succ_cons] at hpre
      exact Or.inr (occ_in_ph_tail i q n a hd hne hn hpre)
  | cons c bf' ih =>
    intro i a p n hd hbr hocc hp
    cases p with
    | zero => simp at hp
    | succ p' =>
      have hocc' : occursAt (bf' ++ phString i ++ a) p' n := by
        have hs : (c :: bf') ++ phString i ++ a = c :: (bf' ++ phString i ++ a) := by simp
        rw [hs] at hocc
        exact occursAt_cons_succ.mp hocc
      rcases ih i a p' n hd hbr hocc' (by simpa using hp) with ⟨hpe, hni⟩ | hex
      · left
        exact ⟨by simp [hpe], hni⟩
      · right
        exact hex

theorem drop_append_len : ∀ (x a : Chars) (q : Nat),
    List.drop (x.length + q) (x ++ a) = List.drop q a := by
  intro x
  induction x with
  | nil => intro a q; simp
  | cons c x' ih =>
    intro a q
    have hlen : (c :: x').length + q = (x'.length + q) + 1 := by
      simp [List.length_cons]
      omega
    rw [hlen, List.cons_append, List.drop_succ_cons, ih]

theorem occursAt_in_right {a : Chars} {q : Nat} {n : Chars} (x : Chars)
    (h : occursAt a q n) : occursAt (x ++ a) (x.length + q) n := by
  rcases h with ⟨hne, hbr, hpre⟩
  exact ⟨hne, hbr, by rw [drop_append_len]; exact hpre⟩

theorem replaceFirst_of_isPre :
    ∀ (l pat v : Chars), pat ≠ [] → isPre pat l = true →
      replaceFirst l pat v = v ++ List.drop pat.length l := by
  intro l pat v hne hpre
  cases l with
  | nil =>
    cases pat with
    | nil => exact absurd rfl hne
    | cons x xs => simp [isPre] at hpre
  | cons c rest =>
    simp only [replaceFirst]
    rw [if_pos hpre]

theorem drop_len_append : ∀ (x a : Chars), List.drop x.length (x ++ a) = a := by
  intro x a
  simp

theorem replaceFirst_at :
    ∀ (bf i a v : Chars), i ≠ [] → '}' ∉ i →
      (∀ (p : Nat) (n : Chars), p < bf.length → ¬ occursAt (bf ++ phString i ++ a) p n) →
      replaceFirst (bf ++ phString i ++ a) (phString i) v = bf ++ v ++ a := by
  intro bf
  induction bf with
  | nil =>
    intro i a v hne hbr _
    rw [List.nil_append, List.nil_append]
    rw [replaceFirst_of_isPre _ _ v (by simp [phString]) (isPre_append_self _ _)]
    rw [drop_len_append]
  | cons c bf' ih =>
    intro i a v hne hbr hmin
    have hshape : (c :: bf') ++ phString i ++ a = c :: (bf' ++ phString i ++ a) := by simp
    have hpre_false : ¬(isPre (phString i) (c :: (bf' ++ phString i ++ a)) = true) := by
      intro hcon
      have hocc : occursAt ((c :: bf') ++ phString i ++ a) 0 i := by
        refine ⟨hne, hbr, ?_⟩
        rw [List.drop_zero, hshape]
        exact hcon
      exact hmin 0 i (by simp) hocc
    have hmin' : ∀ (p : Nat) (n : Chars), p < bf'.length →
        ¬ occursAt (bf' ++ phString i ++ a) p n := by
      intro p n hp hocc
      refine hmin (p + 1) n (by simpa using hp) ?_
      rw [hshape]
      exact occursAt_cons_succ.mpr hocc
    rw [hshape]
    simp only [replaceFirst]
    rw [if_neg hpre_false, ih i a v hne hbr hmin']
    simp

theorem resolveAux_absent (b : Vars) (hb : ∀ k v, b k = some v → '$' ∉ k) :
    ∀ (fuel : Nat) (out : Chars), (∃ p n, occursAt out p n ∧ b n = none) →
      resolveAux b fuel out = none := by
  intro fuel
  induction fuel with
  | zero =>
    intro out h
    rcases h with ⟨p, n, hocc, _⟩
    simp [resolveAux, occ_implies_hasSub hocc]
  | succ fuel ih =>
    intro out h
    rcases h with ⟨p, n, hocc, hbn⟩
    have hsub := occ_implies_hasSub hocc
    rcases hfp : findPH out with _ | ⟨bf, i, a⟩
    · simp [resolveAux, hsub, hfp]
    · rcases hbi : b i with _ | v
      · simp [resolveAux, hsub, hfp, hbi]
      · have hsound := findPH_sound out bf i a hfp
        have hout := hsound.1
        have hine := hsound.2.1
        have hibr := hsound.2.2
        have hdollar : '$' ∉ i := hb i v hbi
        have hge : bf.length ≤ p := by
          by_contra hlt
          push_neg at hlt
          exact findPH_min out bf i a hfp p n hlt hocc
        have hcase := occ_cases bf i a p n hdollar hibr (by rw [← hout]; exact hocc) hge
        rcases hcase with ⟨_, hn⟩ | ⟨q, hq⟩
        · subst hn
          rw [hbi] at hbn
          exact absurd hbn (by simp)
        · have hmin' : ∀ (p' : Nat) (n' : Chars), p' < bf.length →
              ¬ occursAt (bf ++ phString i ++ a) p' n' := by
            intro p' n' hp' hocc'
            exact findPH_min out bf i a hfp p' n' hp' (by rw [hout]; exact hocc')
          have hrf : replaceFirst out (phString i) v = bf ++ v ++ a := by
            rw [hout]
            exact replaceFirst_at bf i a v hine hibr hmin'
          have hnew : occursAt (bf ++ v ++ a) ((bf ++ v).length + q) n := by
            exact occursAt_in_right (bf ++ v) hq
          show resolveAux b (fuel + 1) out = none
          simp only [resolveAux, hsub, if_true, hfp, hbi]
          rw [hrf]
          exact ih _ ⟨_, n, hnew, hbn⟩

/-- C2 (amended): provided every variable name bound in the map contains
no dollar character (true of ordinary variable names), an expression
containing a placeholder occurrence whose name is unbound resolves to
none, without any exception; and unconditionally, resolution never
returns a partially substituted string: every successful result contains
no placeholder opener. -/
theorem c2_resolver_unknown_variable :
    (∀ (b : Vars) (expr : Chars) (p : Nat) (n : Chars),
      (∀ k v, b k = some v → '$' ∉ k) →
      occursAt expr p n → b n = none → resolve_path expr b = none) ∧
    (∀ (expr : Chars) (b : Vars) (r : Chars),
      resolve_path expr b = some r → hasSub phTok r = false) := by
  constructor
  · intro b expr p n hb hocc hbn
    exact resolveAux_absent b hb 20 expr ⟨p, n, hocc, hbn⟩
  · intro expr b r h
    exact resolveAux_some_noPH b 20 expr r h

/-- C2 counterexample: with a binding map whose single key itself contains
a placeholder opener, the concrete expression contains an occurrence of
the unbound name b at position three, yet resolution succeeds: the
leftmost greedy placeholder swallows the inner occurrence, so the claim
as stated over every binding map is false. -/
theorem c2_counterexample :
    occursAt [ '$', '{', 'x', '$', '{', 'b', '}', '}' ] 3 [ 'b' ] ∧
    (fun k : Chars => if k = [ 'x', '$', '{', 'b' ] then some (chars "v") else none)
      [ 'b' ] = none ∧
    resolve_path [ '$', '{', 'x', '$', '{', 'b', '}', '}' ]
      (fun k : Chars => if k = [ 'x', '$', '{', 'b' ] then some (chars "v") else none) =
      some [ 'v', '}' ] := by
  refine ⟨by decide, by decide, by decide⟩

/-- Witness for C2: the amended unresolved-variable contract applied to a
concrete expression and a concrete dollar-free binding map. -/
theorem c2_resolver_unknown_variable_witness :
    resolve_path (chars "${z}")
      (fun k => if k = chars "x" then some (chars "y") else none) = none :=
  c2_resolver_unknown_variable.1
    (fun k => if k = chars "x" then some (chars "y") else none)
    (chars "${z}") 0 (chars "z")
    (by
      intro k v h
      by_cases hk : k = chars "x"
      · subst hk
        decide
      · simp only [hk, if_false] at h
        simp at h)
    (by decide) (by decide)

end SdkPaths
